import Mathlib

/-!
Verification of the go-graphsplit slice partitioner and its feeders.

The Go sources are shallowly embedded: `int64` values become `Int`
(file sizes and byte offsets stay far below 2^63, so Go's wrap-around
arithmetic never triggers on the modelled domain), Go slices become
`List`, and the mutable loop state of each function is threaded
explicitly.  Fallible functions return `Except`/`Option`.
-/

namespace GraphSplit

/-- Embedding of `Finfo` (utils of the graphsplit package): one contiguous
byte range of a source file contributing to a slice.  `size` plays the role
of `Info.Size()`; `seekStart`/`seekEnd` are the inclusive byte offsets. -/
structure Finfo where
  path : String
  name : String
  size : Int
  seekStart : Int
  seekEnd : Int
deriving Repr, DecidableEq, Inhabited

/-- `const Gib = 1024 * 1024 * 1024` from extra_file.go. -/
def Gib : Int := 1024 * 1024 * 1024

/-- `size_in_slice` of a descriptor: `byte_end - byte_start + 1`
(spec §3, FileDescriptor). -/
def sizeInSlice (d : Finfo) : Int := d.seekEnd - d.seekStart + 1

/-- Sum of `size_in_slice` over a descriptor list. -/
def sumSizes (l : List Finfo) : Int := (l.map sizeInSlice).sum

/-- Sum of `Info.Size()` over a descriptor list (the accounting used by
`ExtraFile.getFiles`, which adds `file.Info.Size()` to its running total). -/
def sumFileSizes (l : List Finfo) : Int := (l.map Finfo.size).sum

/-- Modelled from the spec: `GetFileListAsync` (not under src/) emits one
whole-file descriptor per regular file; per spec §4.1 a whole-file
descriptor has `byte_start = 0` and `byte_end = size - 1`. -/
def wholeFile (p n : String) (sz : Int) : Finfo :=
  { path := p, name := n, size := sz, seekStart := 0, seekEnd := sz - 1 }

/-- A descriptor is in whole-file form (enumerator output, spec §4.1). -/
def IsWholeFile (d : Finfo) : Prop :=
  0 ≤ d.size ∧ d.seekStart = 0 ∧ d.seekEnd = d.size - 1

instance (d : Finfo) : Decidable (IsWholeFile d) := by
  unfold IsWholeFile; infer_instance

/-! ## Extra-File Feeder (extra_file.go) -/

/-- Embedding of `ExtraFile`: the pre-shuffled candidate list, the cursor
`idx`, the per-call byte budget `sliceSize` and the per-batch reservation
`pieceRawSize`. -/
structure ExtraFile where
  files : List Finfo
  idx : Nat
  sliceSize : Int
  pieceRawSize : Int
deriving Repr, DecidableEq

/-- The loop body of `ExtraFile.getFiles`.  The Go loop runs
`for total < rf.sliceSize`, advances `rf.idx = (rf.idx + 1) % count` and
breaks as soon as the cursor returns to `startIdx`, so it executes at most
`count` iterations; `fuel` counts the iterations still allowed before that
forced break and the `none` result marks fuel exhaustion, which is proved
unreachable for `fuel = count` below. -/
def getFilesLoop (files : List Finfo) (sliceSize pieceRawSize : Int) (startIdx : Nat) :
    Nat → Nat → Int → Option (List Finfo × Nat)
  | 0, _, _ => none
  | fuel + 1, idx, total =>
    if total < sliceSize then
      let file := files.getD idx default
      let admitted := total + file.size + pieceRawSize ≤ 32 * Gib
      let total2 := if admitted then total + file.size else total
      let idx2 := (idx + 1) % files.length
      if idx2 = startIdx then
        some ((if admitted then [file] else []), idx2)
      else
        match getFilesLoop files sliceSize pieceRawSize startIdx fuel idx2 total2 with
        | none => none
        | some (rest, fin) => some ((if admitted then file :: rest else rest), fin)
    else
      some ([], idx)

/-- Embedding of `ExtraFile.getFiles`: returns the admitted batch and the
feeder with its persisted cursor.  `count = len(rf.files)`; an empty
candidate list returns `nil` immediately. -/
def ExtraFile.getFiles (rf : ExtraFile) : List Finfo × ExtraFile :=
  if rf.files.length = 0 then ([], rf)
  else
    match getFilesLoop rf.files rf.sliceSize rf.pieceRawSize rf.idx
        rf.files.length rf.idx 0 with
    | some (fs, i) => (fs, { rf with idx := i })
    | none => ([], rf)

/-- Number of loop iterations from cursor `idx` until the wrap-around
break fires (the cursor returns to `startIdx`). -/
def wrapDist (startIdx count idx : Nat) : Nat :=
  if idx < startIdx then startIdx - idx else count - idx + startIdx

/-! ## Video Feeder (video.go) -/

/-- Embedding of `VideoFile` restricted to the fields the slicing claims
depend on: the atomic use counter and the numeric value of `endTime`
(the full source duration, in milliseconds), computed once at
construction from `GetVideoDuration`. -/
structure VideoFile where
  counter : Int
  durationMS : Int
deriving Repr, DecidableEq

/-- Embedding of `timeDelayMS` (video.go): renders `ms` milliseconds as an
`h:m:s.s1` timestamp string.  `sec := ms / 1000`, `h := Itoa(sec / 3600)`,
`m := Itoa(sec % 3600 / 60)`, `s := Itoa(sec % 3600 % 60)`,
`s1 := Itoa(ms % 1000)`, `r := h + ":" + m + ":" + s + "." + s1`.  Note
that `s1` is NOT zero-padded to three digits: `timeDelayMS 1` is
`"0:0:0.1"` and `timeDelayMS 10` is `"0:0:0.10"`. -/
def timeDelayMS (ms : Nat) : String :=
  let sec := ms / 1000
  let h := toString (sec / 3600)
  let m := toString (sec % 3600 / 60)
  let s := toString (sec % 3600 % 60)
  let s1 := toString (ms % 1000)
  h ++ ":" ++ m ++ ":" ++ s ++ "." ++ s1

/-- The source-time offset, in milliseconds, that the external
segmentation tool (ffmpeg `-ss`) reads from `timeDelayMS ms`.  The tool
parses `"H:M:S.F"` as `H` hours, `M` minutes and `S.F` seconds, where
`.F` is a DECIMAL fraction of a second.  With the field values produced
by `timeDelayMS` the integral part contributes
`((sec/3600)*3600 + (sec%3600/60)*60 + sec%3600%60) * 1000` milliseconds
(`sec := ms / 1000`), and the fraction `F = Itoa (ms % 1000)` — a string
of `(toString (ms % 1000)).length` digits with value `ms % 1000` —
contributes `(ms % 1000) * 1000 / 10 ^ digits` milliseconds.  Because the
digits are unpadded this is NOT `ms % 1000`: `parsedStartMS 1 = 100`,
`parsedStartMS 10 = 100`, `parsedStartMS 9 = 900`. -/
def parsedStartMS (ms : Nat) : Int :=
  let sec := ms / 1000
  let s1 := ms % 1000
  ((sec / 3600) * 3600 + (sec % 3600 / 60) * 60 + sec % 3600 % 60) * 1000
    + s1 * (1000 / 10 ^ (toString s1).length)

/-- One extracted segment: the millisecond index the call passed to
`timeDelayMS` (`indexMS`), and the source time range `[startMS, stopMS)`
that the segmentation tool actually extracts, in milliseconds of the
source video. -/
structure VideoSeg where
  indexMS : Int
  startMS : Int
  stopMS : Int
deriving Repr, DecidableEq

/-- Embedding of `VideoFile.getFiles` and the `VideoSlice` call it makes:
`current := atomic.AddInt64(&rf.counter, 1)`, `index := current - 1`, the
start-offset string is `timeDelayMS(int(index))`, and ffmpeg is invoked
with `-ss startTime -t rf.endTime`, so the extracted segment covers
source time `[parsedStartMS index, parsedStartMS index + durationMS)`
(clipped at the end of the video by ffmpeg).  `Int.toNat` is the identity
on the modelled domain: the counter starts at the nonnegative base limit
and only ever increments, so `index` is never negative.  The file-system
and process side effects of `VideoSlice` are outside the model; only the
segment geometry and the counter update are kept. -/
def VideoFile.getFiles (vf : VideoFile) : VideoSeg × VideoFile :=
  let current := vf.counter + 1
  let index := current - 1
  (⟨index, parsedStartMS index.toNat,
    parsedStartMS index.toNat + vf.durationMS⟩,
   { vf with counter := current })

/-- Millisecond indices passed to `timeDelayMS` by `n` successive
`VideoFile.getFiles` calls beginning from state `vf`. -/
def videoIndices (vf : VideoFile) : Nat → List Int
  | 0 => []
  | n + 1 => (vf.getFiles).1.indexMS :: videoIndices (vf.getFiles).2 n

/-! ## Config persistence (config/config.go) -/

/-- A TOML value of the shapes the `Config` struct uses. -/
inductive TomlValue where
  | int (i : Int)
  | str (s : String)
deriving Repr, DecidableEq

/-- A TOML document, as the key/value record the encoder emits. -/
abbrev TomlDoc := List (String × TomlValue)

/-- Embedding of `config.Config` with its three persisted fields. -/
structure Config where
  SliceSize : Int
  ExtraFilePath : String
  ExtraFileSizeInOnePiece : String
deriving Repr, DecidableEq

/-- Modelled from the spec: the BurntSushi TOML encoder used by
`Config.SaveConfig` (the library itself is not part of this repository)
writes one key per struct field, named by its `toml` tag, in field order. -/
def SaveConfig (c : Config) : TomlDoc :=
  [("SliceSize", .int c.SliceSize),
   ("ExtraFilePath", .str c.ExtraFilePath),
   ("ExtraFileSizeInOnePiece", .str c.ExtraFileSizeInOnePiece)]

/-- First value bound to `key` in a TOML document. -/
def tomlLookup (doc : TomlDoc) (key : String) : Option TomlValue :=
  (doc.find? (fun kv => kv.1 == key)).map (fun kv => kv.2)

/-- Modelled from the spec: the BurntSushi TOML decoder used by
`LoadConfig` fills each tagged field from the document, fails on a value
whose type does not match the field, and leaves a missing key at the Go
zero value (`0` / `""`). -/
def LoadConfig (doc : TomlDoc) : Option Config :=
  let getInt : String → Option Int := fun k =>
    match tomlLookup doc k with
    | some (.int i) => some i
    | some (.str _) => none
    | none => some 0
  let getStr : String → Option String := fun k =>
    match tomlLookup doc k with
    | some (.str s) => some s
    | some (.int _) => none
    | none => some ""
  match getInt "SliceSize", getStr "ExtraFilePath",
      getStr "ExtraFileSizeInOnePiece" with
  | some a, some b, some c => some ⟨a, b, c⟩
  | _, _, _ => none

/-! ## Piece-manifest repository (db layer) -/

/-- Embedding of the `PieceManifest` model, restricted to the fields
`PieceManifestRepository.Create` validates. -/
structure PieceManifest where
  payloadCID : String
  filename : String
  pieceCID : String
  payloadSize : Int
  pieceSize : Int
  detail : String
  status : String
deriving Repr, DecidableEq

/-- Embedding of `GetByPayloadCID`: first stored manifest with the given
`payload_cid` (the store is the list of live rows of `piece_manifests`). -/
def getByPayloadCID (store : List PieceManifest) (cid : String) :
    Option PieceManifest :=
  store.find? (fun m => m.payloadCID == cid)

/-- Embedding of `PieceManifestRepository.Create`: the manual validation
checks, the `payload_cid` uniqueness probe, and (on success) the insert.
The gorm insert itself is modelled as appending the row. -/
def createManifest (store : List PieceManifest) (m : PieceManifest) :
    Except String (List PieceManifest) :=
  if m.payloadCID = "" ∨ m.filename = "" ∨ m.pieceCID = "" then
    .error "validation failed: required fields missing"
  else if m.payloadSize ≤ 0 ∨ m.pieceSize ≤ 0 then
    .error "validation failed: sizes must be positive"
  else if m.status ≠ "pending" ∧ m.status ≠ "processing" ∧
      m.status ≠ "completed" ∧ m.status ≠ "failed" then
    .error "validation failed: invalid status"
  else
    match getByPayloadCID store m.payloadCID with
    | some _ => .error ("duplicate payload_cid: " ++ m.payloadCID)
    | none => .ok (store ++ [m])

/-! ## Slice partitioner (`Chunk`)

The emitted argument of every `BuildIpldGraph` call is
`append(params.Ef.getFiles(), graphFiles...)`; a `SlicePlan` records the
two halves so that claims can speak about the feeder descriptors and the
partitioner's own descriptors separately. -/

/-- One emitted slice: the feeder batch prepended to the partitioner's
accumulated `graphFiles`. -/
structure SlicePlan where
  batch : List Finfo
  own : List Finfo
deriving Repr, DecidableEq

/-- The full descriptor list handed to the Build Callback:
`append(params.Ef.getFiles(), graphFiles...)`. -/
def SlicePlan.descs (p : SlicePlan) : List Finfo := p.batch ++ p.own

/-- The mutable state of the `Chunk` loop: `cumuSize`, `graphFiles`, the
feeder (whose cursor advances on each emit), and the plans emitted so far
(`graphSliceCount` is their length). -/
structure ChunkAcc where
  cumuSize : Int
  graphFiles : List Finfo
  ef : ExtraFile
  plans : List SlicePlan
deriving Repr, DecidableEq

/-- One `BuildIpldGraph(ctx, append(params.Ef.getFiles(), graphFiles...), ...)`
call followed by the state reset `cumuSize = 0; graphFiles = nil`. -/
def emitSlice (acc : ChunkAcc) : ChunkAcc :=
  let r := acc.ef.getFiles
  { cumuSize := 0, graphFiles := [], ef := r.2,
    plans := acc.plans ++ [⟨r.1, acc.graphFiles⟩] }

/-- Zero-padded `%08d` rendering used in cut names. -/
def pad8 (n : Nat) : String :=
  let s := toString n
  String.mk (List.replicate (8 - s.length) '0') ++ s

/-- `fmt.Sprintf("%s.%08d", item.Info.Name(), fileSliceCount)`. -/
def cutName (item : Finfo) (k : Nat) : String := item.name ++ "." ++ pad8 k

/-- The `for seekEnd < fileSize-1` loop of the `cumuSize+fileSize > partSliceSize`
case of `Chunk`: cuts the remaining bytes of `item` into ranges of
`partSliceSize` bytes (the last possibly shorter, clipped at
`fileSize - 1`), emitting whenever a cut reaches exactly `partSliceSize`.
The Go loop does not terminate when `partSliceSize ≤ 1 - 1`, i.e. when
`1 ≤ part` fails; the guard `1 ≤ part` totalizes the embedding on that
(rejected-configuration) domain and every theorem below assumes a positive
capacity, as spec §7 does. -/
def splitLoop (part fileSize : Int) (item : Finfo) (fsc : Nat) (seekEnd : Int)
    (acc : ChunkAcc) : ChunkAcc :=
  if h : seekEnd < fileSize - 1 ∧ 1 ≤ part then
    let seekStart := seekEnd + 1
    let seekEnd2 := if fileSize - 1 ≤ seekStart + part - 1 then fileSize - 1
      else seekStart + part - 1
    let fi : Finfo := { path := item.path, name := cutName item fsc,
                        size := item.size, seekStart := seekStart,
                        seekEnd := seekEnd2 }
    let acc2 := { acc with
                  cumuSize := acc.cumuSize + (seekEnd2 - seekStart + 1),
                  graphFiles := acc.graphFiles ++ [fi] }
    let acc3 := if seekEnd2 - seekStart = part - 1 then emitSlice acc2 else acc2
    splitLoop part fileSize item (fsc + 1) seekEnd2 acc3
  else acc
termination_by (fileSize - 1 - seekEnd).toNat
decreasing_by
  split <;> omega

/-- The body of the `for _, item := range allFiles` loop of `Chunk`:
the three-way switch on `cumuSize + fileSize` against `partSliceSize`.
(`RandomRenameSourceFile` only rewrites display names and is not
modelled.) -/
def processItem (part : Int) (acc : ChunkAcc) (item : Finfo) : ChunkAcc :=
  let fileSize := item.size
  if acc.cumuSize + fileSize < part then
    { acc with
      cumuSize := acc.cumuSize + fileSize,
      graphFiles := acc.graphFiles ++ [item] }
  else if acc.cumuSize + fileSize = part then
    emitSlice
      { acc with
        cumuSize := acc.cumuSize + fileSize,
        graphFiles := acc.graphFiles ++ [item] }
  else
    let firstCut := part - acc.cumuSize
    let seekEnd : Int := firstCut - 1
    let fi : Finfo := { path := item.path, name := cutName item 0,
                        size := item.size, seekStart := 0,
                        seekEnd := seekEnd }
    let acc2 := emitSlice { acc with graphFiles := acc.graphFiles ++ [fi] }
    splitLoop part fileSize item 1 seekEnd acc2

/-- The main loop of `Chunk` over the (already shuffled) enumerated files,
followed by the final `if cumuSize > 0` emit. -/
def chunkRun (part : Int) (files : List Finfo) (ef : ExtraFile) : ChunkAcc :=
  let acc0 : ChunkAcc := { cumuSize := 0, graphFiles := [], ef := ef, plans := [] }
  let fin := files.foldl (processItem part) acc0
  if 0 < fin.cumuSize then emitSlice fin else fin

/-- Embedding of `Chunk`: the configuration guards, then the partition.
`partSliceSize = params.ExpectSliceSize - params.Ef.sliceSize`.  The
`GetGraphCount == 0` early return (its helper is not under src/) fires only
for an empty corpus, where the model likewise emits no plans, so it is not
modelled separately; `GenGraphName`, the context and the callback results
carry no slice content and are omitted. -/
def Chunk (expectSliceSize parallel : Int) (files : List Finfo)
    (ef : ExtraFile) : Except String (List SlicePlan) :=
  if expectSliceSize = 0 then .error "slice size has been set as 0"
  else if parallel ≤ 0 then .error "parallel has to be greater than 0"
  else .ok (chunkRun (expectSliceSize - ef.sliceSize) files ef).plans

/-- All partitioner-side descriptors held by a state, in creation order:
the emitted plans' `own` halves followed by the pending `graphFiles`. -/
def ownDescs (acc : ChunkAcc) : List Finfo :=
  (acc.plans.map SlicePlan.own).flatten ++ acc.graphFiles

/-- The `own` halves of a plan list, concatenated in emission order. -/
def emittedOwn (ps : List SlicePlan) : List Finfo :=
  (ps.map SlicePlan.own).flatten

/-- The descriptor list `ds`, in order, exactly tiles the byte range
`[0, size - 1]`: consecutive descriptors are adjacent (no gap, no
overlap), the first starts at `0`, the last ends at `size - 1`, and a
file with at least one byte has at least one descriptor. -/
def tilesFile (size : Int) (ds : List Finfo) : Prop :=
  (ds = [] → size = 0) ∧
  (∀ d ∈ ds.head?, d.seekStart = 0) ∧
  (∀ d ∈ ds.getLast?, d.seekEnd = size - 1) ∧
  List.Chain' (fun a b => b.seekStart = a.seekEnd + 1) ds

/-- Modelled from the claim's words (refinement reference for C4): after
the first cut, the remaining bytes are cut into successive ranges of
exactly `part` bytes starting at `start`, the last possibly shorter
(clipped at `S - 1`). -/
def specTailRanges (part S start : Int) : List (Int × Int) :=
  if h : start ≤ S - 1 ∧ 1 ≤ part then
    let e := if S - 1 ≤ start + part - 1 then S - 1 else start + part - 1
    (start, e) :: specTailRanges part S (e + 1)
  else []
termination_by (S - start).toNat
decreasing_by
  split <;> omega

/-- Modelled from the claim's words (refinement reference for C4): the cut
ranges of a file of size `S` that arrives with `accumulated_size = cumu`:
first `[0, cap - cumu - 1]`, then successive ranges of exactly `cap`
bytes, the last possibly shorter. -/
def specSplitRanges (part cumu S : Int) : List (Int × Int) :=
  (0, part - cumu - 1) :: specTailRanges part S (part - cumu)

/-- The invariant of the `Chunk` loop state: the accumulator is the
`size_in_slice` sum of the pending descriptors, sits in `[0, part)`, all
pending descriptors are byte ranges of nonnegative length, and every plan
emitted so far has partitioner-side sum exactly `part`. -/
def ChunkInv (part : Int) (acc : ChunkAcc) : Prop :=
  0 ≤ acc.cumuSize ∧ acc.cumuSize < part ∧
  sumSizes acc.graphFiles = acc.cumuSize ∧
  (∀ d ∈ acc.graphFiles, 0 ≤ sizeInSlice d) ∧
  (∀ p ∈ acc.plans, sumSizes p.own = part)

/-- The joint postcondition of the split loop, relating the state `res`
left by `splitLoop part S item fsc seekEnd acc` to the entry state `acc`
(entered with a zero accumulator): the final accumulator is the leftover
`(S - 1 - seekEnd) % part`, still the sum of the pending cuts; one plan
of partitioner-side sum exactly `part` was emitted per full cut; and the
created descriptors `ds` are the adjacent cut ranges from `seekEnd + 1`
up to `S - 1` described by `specTailRanges`. -/
def SplitLoopOut (part S : Int) (item : Finfo) (seekEnd : Int)
    (acc res : ChunkAcc) : Prop :=
  res.cumuSize = (S - 1 - seekEnd) % part ∧
  sumSizes res.graphFiles = res.cumuSize ∧
  (∀ d ∈ res.graphFiles, 1 ≤ sizeInSlice d) ∧
  (∀ p ∈ res.plans, p ∈ acc.plans ∨ sumSizes p.own = part) ∧
  res.plans.length = acc.plans.length + ((S - 1 - seekEnd) / part).toNat ∧
  ∃ ds, ownDescs res = ownDescs acc ++ ds ∧
    ds.map (fun d => (d.seekStart, d.seekEnd)) = specTailRanges part S (seekEnd + 1) ∧
    (∀ d ∈ ds, d.path = item.path ∧ d.size = item.size ∧ 1 ≤ sizeInSlice d) ∧
    List.Chain' (fun a b => b.seekStart = a.seekEnd + 1) ds ∧
    (∀ d ∈ ds.head?, d.seekStart = seekEnd + 1) ∧
    (∀ d ∈ ds.getLast?, d.seekEnd = S - 1) ∧
    (ds = [] ↔ S - 1 ≤ seekEnd) ∧
    sumSizes ds = S - 1 - seekEnd

/-- The relation between an input file and the descriptor list the
partitioner creates for it during one run: nonempty, all on the file's
path, nonnegative cut lengths (at least one byte each whenever the file
was split), tiling `[0, size - 1]` exactly, and summing to the file
size. -/
def FileDescs (f : Finfo) (ds : List Finfo) : Prop :=
  ds ≠ [] ∧
  (∀ d ∈ ds, d.path = f.path) ∧
  (∀ d ∈ ds, 0 ≤ sizeInSlice d) ∧
  (2 ≤ ds.length → ∀ d ∈ ds, 1 ≤ sizeInSlice d) ∧
  tilesFile f.size ds ∧
  sumSizes ds = f.size

/-! ## Concrete inputs used by counterexamples and witnesses -/

/-- A feeder holding one 7-byte candidate with a 5-byte budget: its batch
overshoots the budget by 2 bytes. -/
def efOvershoot : ExtraFile :=
  { files := [wholeFile "extra/x" "x" 7], idx := 0, sliceSize := 5,
    pieceRawSize := 0 }

/-- Two 5-byte input files for the C1 counterexample run. -/
def cexFiles : List Finfo := [wholeFile "in/a" "a" 5, wholeFile "in/b" "b" 5]

/-- A feeder whose configured `pieceRawSize` alone exceeds the 32 GiB
ceiling, so no candidate is ever admissible. -/
def efHugeReserve : ExtraFile :=
  { files := [wholeFile "extra/y" "y" 1], idx := 0, sliceSize := 1,
    pieceRawSize := 33 * Gib }

/-- A feeder with an empty candidate list and no budget. -/
def efEmpty : ExtraFile :=
  { files := [], idx := 0, sliceSize := 0, pieceRawSize := 0 }

/-- A feeder holding one admissible 1-byte candidate. -/
def efSmall : ExtraFile :=
  { files := [wholeFile "e/a" "a" 1], idx := 0, sliceSize := 1,
    pieceRawSize := 0 }

/-- A manifest passing every `Create` validation check. -/
def mGood : PieceManifest :=
  { payloadCID := "bafyPayload", filename := "piece-0.car",
    pieceCID := "bagaPiece", payloadSize := 100, pieceSize := 128,
    detail := "", status := "pending" }

/-- Three whole files (4, 6 and 3 bytes) used as a concrete partition
run for witnesses. -/
def filesW : List Finfo :=
  [wholeFile "in/a" "a" 4, wholeFile "in/b" "b" 6, wholeFile "in/c" "c" 3]

/-- The two plans `Chunk 10 2 filesW efEmpty` emits. -/
def psW : List SlicePlan :=
  [⟨[], [wholeFile "in/a" "a" 4, wholeFile "in/b" "b" 6]⟩,
   ⟨[], [wholeFile "in/c" "c" 3]⟩]

/-! ## Lemmas about the Extra-File Feeder loop -/

lemma ef_loop_isSome (files : List Finfo) (ss prs : Int) (startIdx : Nat)
    (hs : startIdx < files.length) :
    ∀ fuel idx total, idx < files.length →
      wrapDist startIdx files.length idx ≤ fuel →
      (getFilesLoop files ss prs startIdx fuel idx total).isSome := by
  intro fuel
  induction fuel with
  | zero =>
    intro idx total hidx hd
    exfalso
    unfold wrapDist at hd
    split at hd <;> omega
  | succ fuel ih =>
    intro idx total hidx hd
    unfold getFilesLoop
    split
    · by_cases hwrap : (idx + 1) % files.length = startIdx
      · simp [hwrap]
      · have hidx2 : (idx + 1) % files.length < files.length :=
          Nat.mod_lt _ (by omega)
        have hd2 : wrapDist startIdx files.length ((idx + 1) % files.length) ≤ fuel := by
          unfold wrapDist at hd ⊢
          by_cases hlt : idx + 1 < files.length
          · rw [Nat.mod_eq_of_lt hlt] at hwrap ⊢
            split at hd <;> split <;> omega
          · have hone : idx + 1 = files.length := by omega
            have : (idx + 1) % files.length = 0 := by
              rw [hone, Nat.mod_self]
            rw [this] at hwrap ⊢
            split at hd <;> split <;> omega
        have := ih ((idx + 1) % files.length)
          (if total + (files.getD idx default).size + prs ≤ 32 * Gib then
            total + (files.getD idx default).size else total) hidx2 hd2
        simp only [hwrap, if_false]
        rcases hsome : getFilesLoop files ss prs startIdx fuel
            ((idx + 1) % files.length)
            (if total + (files.getD idx default).size + prs ≤ 32 * Gib then
              total + (files.getD idx default).size else total) with _ | ⟨rest, fin⟩
        · rw [hsome] at this; simp at this
        · simp
    · simp

lemma ef_loop_mono (files : List Finfo) (ss prs : Int) (startIdx : Nat) :
    ∀ fuel idx total r,
      getFilesLoop files ss prs startIdx fuel idx total = some r →
      getFilesLoop files ss prs startIdx (fuel + 1) idx total = some r := by
  intro fuel
  induction fuel with
  | zero => intro idx total r h; simp [getFilesLoop] at h
  | succ fuel ih =>
    intro idx total r h
    rw [show fuel + 1 + 1 = (fuel + 1) + 1 from rfl]
    unfold getFilesLoop at h ⊢
    by_cases ht : total < ss
    · simp only [if_pos ht] at h ⊢
      by_cases hwrap : (idx + 1) % files.length = startIdx
      · simp only [if_pos hwrap] at h ⊢
        exact h
      · simp only [if_neg hwrap] at h ⊢
        rcases hsome : getFilesLoop files ss prs startIdx fuel
            ((idx + 1) % files.length)
            (if total + (files.getD idx default).size + prs ≤ 32 * Gib then
              total + (files.getD idx default).size else total) with _ | r0
        · rw [hsome] at h; simp at h
        · rw [ih _ _ _ hsome]
          rw [hsome] at h
          exact h
    · simp only [if_neg ht] at h ⊢
      exact h

lemma ef_loop_stable (files : List Finfo) (ss prs : Int) (startIdx : Nat) :
    ∀ extra fuel idx total r,
      getFilesLoop files ss prs startIdx fuel idx total = some r →
      getFilesLoop files ss prs startIdx (fuel + extra) idx total = some r := by
  intro extra
  induction extra with
  | zero => intro fuel idx total r h; exact h
  | succ extra ih =>
    intro fuel idx total r h
    exact ef_loop_mono files ss prs startIdx (fuel + extra) idx total r
      (ih fuel idx total r h)

/-- Loop invariant behind the 32 GiB ceiling: a candidate is admitted only
when `total + size + pieceRawSize ≤ 32 GiB`, so a nonempty result keeps
`sum + total + pieceRawSize` under the ceiling. -/
lemma ef_loop_cap (files : List Finfo) (ss prs : Int) (startIdx : Nat) :
    ∀ fuel idx total r,
      getFilesLoop files ss prs startIdx fuel idx total = some r →
      r.1 = [] ∨ sumFileSizes r.1 + total + prs ≤ 32 * Gib := by
  intro fuel
  induction fuel with
  | zero => intro idx total r h; simp [getFilesLoop] at h
  | succ fuel ih =>
    intro idx total r h
    unfold getFilesLoop at h
    by_cases ht : total < ss
    · simp only [if_pos ht] at h
      by_cases hadmit : total + (files.getD idx default).size + prs ≤ 32 * Gib
      · by_cases hwrap : (idx + 1) % files.length = startIdx
        · simp only [if_pos hwrap, if_pos hadmit] at h
          rw [Option.some.injEq] at h
          subst h
          right
          simp only [sumFileSizes, List.map_cons, List.map_nil, List.sum_cons,
            List.sum_nil]
          linarith
        · simp only [if_neg hwrap, if_pos hadmit] at h
          rcases hsome : getFilesLoop files ss prs startIdx fuel
              ((idx + 1) % files.length)
              (total + (files.getD idx default).size) with _ | r0
          · rw [hsome] at h; simp at h
          · rw [hsome] at h
            rw [Option.some.injEq] at h
            subst h
            right
            rcases ih _ _ _ hsome with hnil | hle
            · rw [hnil]
              simp only [sumFileSizes, List.map_cons, List.map_nil, List.sum_cons,
                List.sum_nil]
              linarith
            · simp only [sumFileSizes, List.map_cons, List.sum_cons] at hle ⊢
              linarith
      · by_cases hwrap : (idx + 1) % files.length = startIdx
        · simp only [if_pos hwrap, if_neg hadmit] at h
          rw [Option.some.injEq] at h
          subst h
          left; rfl
        · simp only [if_neg hwrap, if_neg hadmit] at h
          rcases hsome : getFilesLoop files ss prs startIdx fuel
              ((idx + 1) % files.length) total with _ | r0
          · rw [hsome] at h; simp at h
          · rw [hsome] at h
            rw [Option.some.injEq] at h
            subst h
            exact ih _ _ _ hsome
    · simp only [if_neg ht] at h
      rw [Option.some.injEq] at h
      subst h
      left; rfl


/-! ## Lemmas about the split loop of `Chunk` -/

lemma sumSizes_nil : sumSizes [] = 0 := rfl

lemma sumSizes_cons (d : Finfo) (l : List Finfo) :
    sumSizes (d :: l) = sizeInSlice d + sumSizes l := by
  simp [sumSizes]

lemma sumSizes_append (l1 l2 : List Finfo) :
    sumSizes (l1 ++ l2) = sumSizes l1 + sumSizes l2 := by
  simp [sumSizes]

lemma splitLoop_stop (part S : Int) (item : Finfo) (fsc : Nat) (seekEnd : Int)
    (acc : ChunkAcc) (h : ¬(seekEnd < S - 1)) :
    splitLoop part S item fsc seekEnd acc = acc := by
  rw [splitLoop]
  exact dif_neg (by tauto)

lemma specTailRanges_stop (part S start : Int) (h : ¬(start ≤ S - 1)) :
    specTailRanges part S start = [] := by
  rw [specTailRanges]
  exact dif_neg (by tauto)

lemma specTailRanges_step (part S start : Int) (h1 : start ≤ S - 1)
    (h2 : 1 ≤ part) :
    specTailRanges part S start =
      (start, if S - 1 ≤ start + part - 1 then S - 1 else start + part - 1) ::
        specTailRanges part S
          ((if S - 1 ≤ start + part - 1 then S - 1 else start + part - 1) + 1) := by
  rw [specTailRanges]
  rw [dif_pos ⟨h1, h2⟩]

lemma ownDescs_emitSlice (acc : ChunkAcc) :
    ownDescs (emitSlice acc) = ownDescs acc := by
  unfold ownDescs emitSlice
  simp

lemma int_sub_emod_self (R part : Int) : (R - part) % part = R % part := by
  have h1 : R - part = R + part * (-1) := by ring
  rw [h1, Int.add_mul_emod_self_left]

lemma int_sub_ediv_self (R part : Int) (hp : part ≠ 0) :
    (R - part) / part = R / part - 1 := by
  have h1 : R - part = R + (-1) * part := by ring
  rw [h1, Int.add_mul_ediv_right _ _ hp]
  ring

lemma splitLoop_out_base (part S : Int) (item : Finfo) (fsc : Nat)
    (seekEnd : Int) (acc : ChunkAcc) (hstop : ¬(seekEnd < S - 1))
    (hle : seekEnd ≤ S - 1) (hc0 : acc.cumuSize = 0)
    (hg0 : acc.graphFiles = []) :
    SplitLoopOut part S item seekEnd acc
      (splitLoop part S item fsc seekEnd acc) := by
  rw [splitLoop_stop part S item fsc seekEnd acc hstop]
  have hR : S - 1 - seekEnd = 0 := by omega
  unfold SplitLoopOut
  rw [hR]
  refine ⟨by simp [hc0], by simp [hg0, hc0, sumSizes], by simp [hg0],
    fun p hp => Or.inl hp, by simp, [], by simp, ?_, by simp, by simp,
    by simp, by simp, ⟨fun _ => by omega, fun _ => rfl⟩, by simp [sumSizes]⟩
  rw [specTailRanges_stop part S (seekEnd + 1) (by omega)]
  rfl

lemma splitLoop_spec (part S : Int) (item : Finfo) (hpart : 1 ≤ part) :
    ∀ (k : Nat) (fsc : Nat) (seekEnd : Int) (acc : ChunkAcc),
      (S - 1 - seekEnd).toNat ≤ k →
      seekEnd ≤ S - 1 →
      acc.cumuSize = 0 → acc.graphFiles = [] →
      SplitLoopOut part S item seekEnd acc
        (splitLoop part S item fsc seekEnd acc) := by
  intro k
  induction k with
  | zero =>
    intro fsc seekEnd acc hk hle hc0 hg0
    exact splitLoop_out_base part S item fsc seekEnd acc (by omega) hle hc0 hg0
  | succ k ih =>
    intro fsc seekEnd acc hk hle hc0 hg0
    by_cases hguard : seekEnd < S - 1
    · obtain ⟨accC, accG, accE, accP⟩ := acc
      simp only [ChunkAcc.mk.injEq] at hc0 hg0
      subst hc0
      subst hg0
      rw [splitLoop]
      rw [dif_pos ⟨hguard, hpart⟩]
      simp only []
      by_cases hclip : S - 1 ≤ seekEnd + 1 + part - 1
      · simp only [if_pos hclip]
        by_cases hfull : S - 1 - (seekEnd + 1) = part - 1
        · -- the last cut is exactly `part` bytes: emit, then the loop stops
          simp only [if_pos hfull]
          rw [splitLoop_stop part S item (fsc + 1) (S - 1) _ (by omega)]
          have hRp : S - 1 - seekEnd = part := by omega
          unfold SplitLoopOut
          refine ⟨?_, ?_, ?_, ?_, ?_,
            [⟨item.path, cutName item fsc, item.size, seekEnd + 1, S - 1⟩],
            ?_, ?_, ?_, ?_, ?_, ?_, ?_, ?_⟩
          · rw [hRp, Int.emod_self]
            rfl
          · rfl
          · simp [emitSlice]
          · intro p hp
            simp only [emitSlice, List.mem_append, List.mem_singleton] at hp
            rcases hp with hp | hp
            · exact Or.inl hp
            · subst hp
              right
              simp only [List.nil_append]
              rw [sumSizes_cons, sumSizes_nil]
              simp [sizeInSlice]
              omega
          · simp only [emitSlice, List.length_append, List.length_singleton]
            rw [hRp, Int.ediv_self (by omega : part ≠ 0)]
            rfl
          · rw [ownDescs_emitSlice]
            unfold ownDescs
            simp
          · rw [List.map_cons, List.map_nil]
            rw [specTailRanges_step part S (seekEnd + 1) (by omega) hpart]
            rw [if_pos hclip]
            rw [specTailRanges_stop part S (S - 1 + 1) (by omega)]
          · intro d hd
            simp only [List.mem_singleton] at hd
            subst hd
            refine ⟨rfl, rfl, ?_⟩
            simp [sizeInSlice]
            omega
          · simp
          · intro d hd
            simp only [List.head?_cons, Option.mem_some_iff] at hd
            subst hd
            rfl
          · intro d hd
            simp only [List.getLast?_singleton, Option.mem_some_iff] at hd
            subst hd
            rfl
          · exact ⟨fun h => absurd h (by simp), fun h => absurd h (by omega)⟩
          · rw [sumSizes_cons, sumSizes_nil]
            simp [sizeInSlice]
            omega
        · -- the last cut is shorter than `part`: no emit, the loop stops
          simp only [if_neg hfull]
          rw [splitLoop_stop part S item (fsc + 1) (S - 1) _ (by omega)]
          have hRlt : S - 1 - seekEnd < part := by omega
          have hR1 : 1 ≤ S - 1 - seekEnd := by omega
          unfold SplitLoopOut
          refine ⟨?_, ?_, ?_, ?_, ?_,
            [⟨item.path, cutName item fsc, item.size, seekEnd + 1, S - 1⟩],
            ?_, ?_, ?_, ?_, ?_, ?_, ?_, ?_⟩
          · rw [Int.emod_eq_of_lt (by omega) hRlt]
            dsimp only
            omega
          · dsimp only
            rw [List.nil_append, sumSizes_cons, sumSizes_nil]
            simp [sizeInSlice]
          · intro d hd
            dsimp only at hd
            rw [List.nil_append, List.mem_singleton] at hd
            subst hd
            simp [sizeInSlice]
            omega
          · intro p hp
            exact Or.inl hp
          · dsimp only
            rw [Int.ediv_eq_zero_of_lt (by omega) hRlt]
            rfl
          · unfold ownDescs
            dsimp only
            simp
          · rw [List.map_cons, List.map_nil]
            rw [specTailRanges_step part S (seekEnd + 1) (by omega) hpart]
            rw [if_pos hclip]
            rw [specTailRanges_stop part S (S - 1 + 1) (by omega)]
          · intro d hd
            simp only [List.mem_singleton] at hd
            subst hd
            refine ⟨rfl, rfl, ?_⟩
            simp [sizeInSlice]
            omega
          · simp
          · intro d hd
            simp only [List.head?_cons, Option.mem_some_iff] at hd
            subst hd
            rfl
          · intro d hd
            simp only [List.getLast?_singleton, Option.mem_some_iff] at hd
            subst hd
            rfl
          · exact ⟨fun h => absurd h (by simp), fun h => absurd h (by omega)⟩
          · rw [sumSizes_cons, sumSizes_nil]
            simp [sizeInSlice]
            omega
      · -- not clipped: a full `part`-byte cut with bytes still remaining
        simp only [if_neg hclip]
        rw [if_pos (show seekEnd + 1 + part - 1 - (seekEnd + 1) = part - 1 by
          ring)]
        have hRgt : part < S - 1 - seekEnd := by omega
        have hout := ih (fsc + 1) (seekEnd + 1 + part - 1)
          (emitSlice ⟨0 + (seekEnd + 1 + part - 1 - (seekEnd + 1) + 1),
            [] ++ [⟨item.path, cutName item fsc, item.size, seekEnd + 1,
              seekEnd + 1 + part - 1⟩], accE, accP⟩)
          (by omega) (by omega) rfl rfl
        obtain ⟨B1, B2, B3, B4, B5, ds, hd1, hd2, hd3, hd4, hd5, hd6, hd7, hd8⟩ :=
          hout
        have hshift : S - 1 - (seekEnd + 1 + part - 1) =
            S - 1 - seekEnd - part := by ring
        unfold SplitLoopOut
        refine ⟨?_, B2, B3, ?_, ?_,
          ⟨item.path, cutName item fsc, item.size, seekEnd + 1,
            seekEnd + 1 + part - 1⟩ :: ds,
          ?_, ?_, ?_, ?_, ?_, ?_, ?_, ?_⟩
        · rw [B1, hshift, int_sub_emod_self]
        · intro p hp
          rcases B4 p hp with hp2 | hp2
          · simp only [emitSlice, List.mem_append, List.mem_singleton] at hp2
            rcases hp2 with hp2 | hp2
            · exact Or.inl hp2
            · subst hp2
              right
              simp only [List.nil_append]
              rw [sumSizes_cons, sumSizes_nil]
              simp [sizeInSlice]
              omega
          · exact Or.inr hp2
        · rw [B5]
          simp only [emitSlice, List.length_append, List.length_singleton]
          rw [hshift, int_sub_ediv_self _ _ (by omega : part ≠ 0)]
          have hq1 : 1 ≤ (S - 1 - seekEnd) / part := by
            rw [Int.le_ediv_iff_mul_le (by omega : (0:Int) < part)]
            omega
          generalize hq : (S - 1 - seekEnd) / part = q at hq1 ⊢
          omega
        · rw [hd1, ownDescs_emitSlice]
          unfold ownDescs
          simp
        · rw [List.map_cons, hd2]
          rw [specTailRanges_step part S (seekEnd + 1) (by omega) hpart]
          rw [if_neg hclip]
        · intro d hd
          rcases List.mem_cons.mp hd with hd | hd
          · subst hd
            refine ⟨rfl, rfl, ?_⟩
            simp [sizeInSlice]
            omega
          · exact hd3 d hd
        · refine List.chain'_cons'.mpr ⟨?_, hd4⟩
          intro y hy
          rw [hd5 y hy]
        · intro d hd
          simp only [List.head?_cons, Option.mem_some_iff] at hd
          subst hd
          rfl
        · have hdsne : ds ≠ [] := by
            intro hnil
            have := hd7.mp hnil
            omega
          rcases ds with _ | ⟨d0, ds2⟩
          · exact absurd rfl hdsne
          · intro d hd
            rw [List.getLast?_cons_cons] at hd
            exact hd6 d hd
        · exact ⟨fun h => absurd h (by simp), fun h => absurd h (by omega)⟩
        · rw [sumSizes_cons, hd8, hshift]
          simp [sizeInSlice]
          ring
    · exact splitLoop_out_base part S item fsc seekEnd acc hguard hle hc0 hg0

/-- Per-item behaviour of the `Chunk` loop body: the loop invariant is
preserved and the descriptors created for `item` (appended to the state's
partitioner-side descriptor sequence) tile `[0, item.size - 1]` exactly,
with total `size_in_slice` equal to the file size; a multi-descriptor
(split) file has every cut of at least one byte. -/
lemma processItem_spec (part : Int) (acc : ChunkAcc) (item : Finfo)
    (hpart : 1 ≤ part) (hinv : ChunkInv part acc) (hitem : IsWholeFile item) :
    ChunkInv part (processItem part acc item) ∧
    ∃ ds, ds ≠ [] ∧
      ownDescs (processItem part acc item) = ownDescs acc ++ ds ∧
      (∀ d ∈ ds, d.path = item.path) ∧
      (∀ d ∈ ds, 0 ≤ sizeInSlice d) ∧
      (2 ≤ ds.length → ∀ d ∈ ds, 1 ≤ sizeInSlice d) ∧
      tilesFile item.size ds ∧
      sumSizes ds = item.size := by
  obtain ⟨I1, I2, I3, I4, I5⟩ := hinv
  obtain ⟨W1, W2, W3⟩ := hitem
  have hsz : sizeInSlice item = item.size := by
    unfold sizeInSlice
    omega
  unfold processItem
  by_cases hlt : acc.cumuSize + item.size < part
  · simp only [if_pos hlt]
    constructor
    · refine ⟨by dsimp only; omega, by dsimp only; omega, ?_, ?_, I5⟩
      · dsimp only
        rw [sumSizes_append, I3, sumSizes_cons, sumSizes_nil, hsz]
        ring
      · intro d hd
        dsimp only at hd
        rcases List.mem_append.mp hd with hd | hd
        · exact I4 d hd
        · rw [List.mem_singleton] at hd
          subst hd
          omega
    · refine ⟨[item], by simp, ?_, ?_, ?_, ?_, ?_, ?_⟩
      · unfold ownDescs
        dsimp only
        rw [List.append_assoc]
      · intro d hd
        rw [List.mem_singleton] at hd
        subst hd
        rfl
      · intro d hd
        rw [List.mem_singleton] at hd
        subst hd
        omega
      · intro h
        simp at h
      · refine ⟨fun h => absurd h (by simp), ?_, ?_, by simp⟩
        · intro d hd
          simp only [List.head?_cons, Option.mem_some_iff] at hd
          subst hd
          exact W2
        · intro d hd
          simp only [List.getLast?_singleton, Option.mem_some_iff] at hd
          subst hd
          exact W3
      · rw [sumSizes_cons, sumSizes_nil, hsz]
        ring
  · simp only [if_neg hlt]
    by_cases heq : acc.cumuSize + item.size = part
    · simp only [if_pos heq]
      constructor
      · refine ⟨le_refl 0, by simp only [emitSlice]; omega, rfl,
          by simp [emitSlice], ?_⟩
        intro p hp
        simp only [emitSlice, List.mem_append, List.mem_singleton] at hp
        rcases hp with hp | hp
        · exact I5 p hp
        · subst hp
          dsimp only
          rw [sumSizes_append, I3, sumSizes_cons, sumSizes_nil, hsz]
          omega
      · refine ⟨[item], by simp, ?_, ?_, ?_, ?_, ?_, ?_⟩
        · rw [ownDescs_emitSlice]
          unfold ownDescs
          dsimp only
          rw [List.append_assoc]
        · intro d hd
          rw [List.mem_singleton] at hd
          subst hd
          rfl
        · intro d hd
          rw [List.mem_singleton] at hd
          subst hd
          omega
        · intro h
          simp at h
        · refine ⟨fun h => absurd h (by simp), ?_, ?_, by simp⟩
          · intro d hd
            simp only [List.head?_cons, Option.mem_some_iff] at hd
            subst hd
            exact W2
          · intro d hd
            simp only [List.getLast?_singleton, Option.mem_some_iff] at hd
            subst hd
            exact W3
        · rw [sumSizes_cons, sumSizes_nil, hsz]
          ring
    · simp only [if_neg heq]
      have hgt : part < acc.cumuSize + item.size := by omega
      have hfc1 : 1 ≤ part - acc.cumuSize := by omega
      have hse : part - acc.cumuSize - 1 ≤ item.size - 1 := by omega
      have hout := splitLoop_spec part item.size item hpart
        (item.size - 1 - (part - acc.cumuSize - 1)).toNat 1
        (part - acc.cumuSize - 1)
        (emitSlice { acc with
          graphFiles := acc.graphFiles ++
            [{ path := item.path, name := cutName item 0, size := item.size,
               seekStart := 0, seekEnd := part - acc.cumuSize - 1 }] })
        (le_refl _) hse rfl rfl
      obtain ⟨B1, B2, B3, B4, B5, ds2, hd1, hd2, hd3, hd4, hd5, hd6, hd7, hd8⟩ :=
        hout
      have hfi0 : sizeInSlice
          { path := item.path, name := cutName item 0, size := item.size,
            seekStart := 0, seekEnd := part - acc.cumuSize - 1 } =
          part - acc.cumuSize := by
        unfold sizeInSlice
        dsimp only
        ring
      have hds2ne : ds2 ≠ [] := by
        intro hnil
        have := hd7.mp hnil
        omega
      constructor
      · refine ⟨?_, ?_, B2, ?_, ?_⟩
        · rw [B1]
          exact Int.emod_nonneg _ (by omega)
        · rw [B1]
          exact Int.emod_lt_of_pos _ (by omega)
        · intro d hd
          have := B3 d hd
          omega
        · intro p hp
          rcases B4 p hp with hp2 | hp2
          · simp only [emitSlice, List.mem_append, List.mem_singleton] at hp2
            rcases hp2 with hp2 | hp2
            · exact I5 p hp2
            · subst hp2
              dsimp only
              rw [sumSizes_append, I3, sumSizes_cons, sumSizes_nil, hfi0]
              ring
          · exact hp2
      · refine ⟨(⟨item.path, cutName item 0, item.size, 0,
            part - acc.cumuSize - 1⟩ : Finfo) :: ds2,
          by simp, ?_, ?_, ?_, ?_, ?_, ?_⟩
        · rw [hd1, ownDescs_emitSlice]
          unfold ownDescs
          dsimp only
          simp
        · intro d hd
          rcases List.mem_cons.mp hd with hd | hd
          · subst hd
            rfl
          · exact (hd3 d hd).1
        · intro d hd
          rcases List.mem_cons.mp hd with hd | hd
          · subst hd
            rw [hfi0]
            omega
          · have := (hd3 d hd).2.2
            omega
        · intro hlen d hd
          rcases List.mem_cons.mp hd with hd | hd
          · subst hd
            rw [hfi0]
            omega
          · exact (hd3 d hd).2.2
        · refine ⟨fun h => absurd h (by simp), ?_, ?_, ?_⟩
          · intro d hd
            simp only [List.head?_cons, Option.mem_some_iff] at hd
            subst hd
            rfl
          · rcases ds2 with _ | ⟨d0, ds3⟩
            · exact absurd rfl hds2ne
            · intro d hd
              rw [List.getLast?_cons_cons] at hd
              exact hd6 d hd
          · refine List.chain'_cons'.mpr ⟨?_, hd4⟩
            intro y hy
            rw [hd5 y hy]
        · rw [sumSizes_cons, hd8, hfi0]
          ring
      
lemma sumSizes_nonneg (l : List Finfo) (h : ∀ d ∈ l, 0 ≤ sizeInSlice d) :
    0 ≤ sumSizes l := by
  induction l with
  | nil => simp [sumSizes]
  | cons d l ih =>
    rw [sumSizes_cons]
    have h1 := h d (by simp)
    have h2 := ih (fun x hx => h x (by simp [hx]))
    omega

lemma sumSizes_all_zero (l : List Finfo) (h0 : sumSizes l = 0)
    (hnn : ∀ d ∈ l, 0 ≤ sizeInSlice d) : ∀ d ∈ l, sizeInSlice d = 0 := by
  induction l with
  | nil => simp
  | cons d l ih =>
    rw [sumSizes_cons] at h0
    have h1 := hnn d (by simp)
    have h2 := sumSizes_nonneg l (fun x hx => hnn x (by simp [hx]))
    intro x hx
    rcases List.mem_cons.mp hx with hx | hx
    · subst hx
      omega
    · exact ih (by omega) (fun y hy => hnn y (by simp [hy])) x hx

lemma sumSizes_zero_of_all (l : List Finfo)
    (h : ∀ d ∈ l, sizeInSlice d = 0) : sumSizes l = 0 := by
  induction l with
  | nil => rfl
  | cons d l ih =>
    rw [sumSizes_cons, h d (by simp), ih (fun x hx => h x (by simp [hx]))]
    omega

lemma tilesFile_nil (s : Int) (h : s = 0) : tilesFile s [] := by
  refine ⟨fun _ => h, by simp, by simp, by simp⟩

/-- Dropping a zero-length tail from a tiling keeps it a tiling, given
that a multi-descriptor tiling has only positive cuts. -/
lemma tilesFile_drop_zero_tail (s : Int) (A B : List Finfo)
    (ht : tilesFile s (A ++ B))
    (hz : ∀ d ∈ B, sizeInSlice d = 0)
    (hmulti : 2 ≤ (A ++ B).length → ∀ d ∈ A ++ B, 1 ≤ sizeInSlice d)
    (hsum : sumSizes (A ++ B) = s) :
    tilesFile s A := by
  rcases B with _ | ⟨b0, B2⟩
  · simpa using ht
  · rcases A with _ | ⟨a0, A2⟩
    · rw [List.nil_append] at hsum
      exact tilesFile_nil s (by rw [← hsum, sumSizes_zero_of_all _ hz])
    · exfalso
      have hlen : 2 ≤ ((a0 :: A2) ++ b0 :: B2).length := by
        simp
        omega
      have := hmulti hlen b0 (by simp)
      have := hz b0 (by simp)
      omega

lemma forall₂_path_of_flatten (fs : List Finfo) (dss : List (List Finfo))
    (h : List.Forall₂ FileDescs fs dss) :
    ∀ d ∈ dss.flatten, ∃ g ∈ fs, d.path = g.path := by
  induction h with
  | nil => simp
  | cons hfd hrest ih =>
    intro d hd
    rw [List.flatten_cons, List.mem_append] at hd
    rcases hd with hd | hd
    · exact ⟨_, by simp, hfd.2.1 d hd⟩
    · obtain ⟨g, hg, hp⟩ := ih d hd
      exact ⟨g, by simp [hg], hp⟩

lemma forall₂_size_zero_of_flatten (fs : List Finfo) (dss : List (List Finfo))
    (h : List.Forall₂ FileDescs fs dss)
    (hz : ∀ d ∈ dss.flatten, sizeInSlice d = 0) :
    ∀ g ∈ fs, g.size = 0 := by
  induction h with
  | nil => simp
  | cons hfd hrest ih =>
    intro g hg
    rcases List.mem_cons.mp hg with hg | hg
    · subst hg
      rw [← hfd.2.2.2.2.2]
      exact sumSizes_zero_of_all _ (fun d hd => hz d (by
        rw [List.flatten_cons, List.mem_append]
        exact Or.inl hd))
    · exact ih (fun d hd => hz d (by
        rw [List.flatten_cons, List.mem_append]
        exact Or.inr hd)) g hg

/-- Splitting a concatenated run of per-file descriptor groups at an
arbitrary point: the emitted part `A`, filtered to one input file's path,
still tiles that file, provided everything in the dropped suffix `B` has
zero length. -/
lemma tiling_of_join_split :
    ∀ (fs : List Finfo) (dss : List (List Finfo)) (A B : List Finfo),
      List.Forall₂ FileDescs fs dss →
      A ++ B = dss.flatten →
      (∀ d ∈ B, sizeInSlice d = 0) →
      (fs.map Finfo.path).Nodup →
      ∀ f ∈ fs, tilesFile f.size (A.filter (fun d => d.path == f.path)) := by
  intro fs
  induction fs with
  | nil => intro dss A B h hAB hz hnd f hf; simp at hf
  | cons f0 fs ih =>
    intro dss A B h hAB hz hnd f hf
    rcases h with _ | ⟨hfd, hrest⟩
    rename_i ds dss2
    rw [List.flatten_cons] at hAB
    rw [List.map_cons, List.nodup_cons] at hnd
    rcases List.append_eq_append_iff.mp hAB with ⟨a2, hds, hfl⟩ | ⟨A2, hA, hfl⟩
    · -- `A` ends inside (or at the start of) the first group `ds`
      have hzA2 : ∀ d ∈ a2, sizeInSlice d = 0 := by
        intro d hd
        exact hz d (by rw [hfl, List.mem_append]; exact Or.inl hd)
      have hzfl : ∀ d ∈ dss2.flatten, sizeInSlice d = 0 := by
        intro d hd
        exact hz d (by rw [hfl, List.mem_append]; exact Or.inr hd)
      have hApaths : ∀ d ∈ A, d.path = f0.path := by
        intro d hd
        exact hfd.2.1 d (by rw [hds, List.mem_append]; exact Or.inl hd)
      rcases List.mem_cons.mp hf with hf | hf
      · subst hf
        have hfilter : A.filter (fun d => d.path == f.path) = A := by
          apply List.filter_eq_self.mpr
          intro d hd
          rw [beq_iff_eq]
          exact hApaths d hd
        rw [hfilter]
        refine tilesFile_drop_zero_tail f.size A a2 ?_ hzA2 ?_ ?_
        · rw [← hds]
          exact hfd.2.2.2.2.1
        · rw [← hds]
          exact hfd.2.2.2.1
        · rw [← hds]
          exact hfd.2.2.2.2.2
      · have hfilter : A.filter (fun d => d.path == f.path) = [] := by
          rw [List.filter_eq_nil_iff]
          intro d hd
          rw [beq_iff_eq, hApaths d hd]
          intro hcontra
          exact hnd.1 (hcontra ▸ List.mem_map_of_mem Finfo.path hf)
        rw [hfilter]
        apply tilesFile_nil
        exact forall₂_size_zero_of_flatten fs dss2 hrest hzfl f hf
    · -- `A` covers the whole first group `ds`
      have hdspaths : ∀ d ∈ ds, d.path = f0.path := hfd.2.1
      rcases List.mem_cons.mp hf with hf | hf
      · subst hf
        have hfilterA2 : A2.filter (fun d => d.path == f.path) = [] := by
          rw [List.filter_eq_nil_iff]
          intro d hd
          have hd2 : d ∈ dss2.flatten := by
            rw [hfl, List.mem_append]
            exact Or.inl hd
          obtain ⟨g, hg, hp⟩ := forall₂_path_of_flatten fs dss2 hrest d hd2
          rw [beq_iff_eq, hp]
          intro hcontra
          exact hnd.1 (hcontra ▸ List.mem_map_of_mem Finfo.path hg)
        have hfilterds : ds.filter (fun d => d.path == f.path) = ds := by
          apply List.filter_eq_self.mpr
          intro d hd
          rw [beq_iff_eq]
          exact hdspaths d hd
        rw [hA, List.filter_append, hfilterds, hfilterA2, List.append_nil]
        exact hfd.2.2.2.2.1
      · have hfilterds : ds.filter (fun d => d.path == f.path) = [] := by
          rw [List.filter_eq_nil_iff]
          intro d hd
          rw [beq_iff_eq, hdspaths d hd]
          intro hcontra
          exact hnd.1 (hcontra ▸ List.mem_map_of_mem Finfo.path hf)
        rw [hA, List.filter_append, hfilterds, List.nil_append]
        exact ih dss2 A2 B hrest hfl.symm hz hnd.2 f hf

/-- The main loop of `Chunk` preserves the invariant and appends, per
input file, one descriptor group satisfying `FileDescs`. -/
lemma chunkFold_spec (part : Int) (hpart : 1 ≤ part) :
    ∀ (files : List Finfo) (acc : ChunkAcc),
      ChunkInv part acc →
      (∀ f ∈ files, IsWholeFile f) →
      ChunkInv part (files.foldl (processItem part) acc) ∧
      ∃ dss : List (List Finfo),
        ownDescs (files.foldl (processItem part) acc) =
          ownDescs acc ++ dss.flatten ∧
        List.Forall₂ FileDescs files dss := by
  intro files
  induction files with
  | nil =>
    intro acc hinv hw
    exact ⟨hinv, [], by simp, List.Forall₂.nil⟩
  | cons f fs ih =>
    intro acc hinv hw
    rw [List.foldl_cons]
    obtain ⟨hinv2, ds, hne, hod, hp, hnn, hmulti, htile, hsum⟩ :=
      processItem_spec part acc f hpart hinv (hw f (by simp))
    obtain ⟨hinv3, dss, hod2, hall⟩ := ih (processItem part acc f) hinv2
      (fun g hg => hw g (by simp [hg]))
    refine ⟨hinv3, ds :: dss, ?_,
      List.Forall₂.cons ⟨hne, hp, hnn, hmulti, htile, hsum⟩ hall⟩
    rw [hod2, hod]
    simp

lemma emittedOwn_emitSlice (acc : ChunkAcc) :
    emittedOwn (emitSlice acc).plans = ownDescs acc := by
  unfold emittedOwn emitSlice ownDescs
  simp

lemma ownDescs_split (acc : ChunkAcc) :
    ownDescs acc = emittedOwn acc.plans ++ acc.graphFiles := rfl

lemma forall₂_sum_sizes (fs : List Finfo) (dss : List (List Finfo))
    (h : List.Forall₂ FileDescs fs dss) :
    sumSizes dss.flatten = (fs.map Finfo.size).sum := by
  induction h with
  | nil => rfl
  | cons hfd hrest ih =>
    rw [List.flatten_cons, sumSizes_append, ih, List.map_cons, List.sum_cons,
      hfd.2.2.2.2.2]

lemma chunk_ok_plans (e par : Int) (files : List Finfo) (ef : ExtraFile)
    (ps : List SlicePlan) (hok : Chunk e par files ef = .ok ps) :
    ps = (chunkRun (e - ef.sliceSize) files ef).plans := by
  unfold Chunk at hok
  by_cases h1 : e = 0
  · rw [if_pos h1] at hok
    exact absurd hok (by simp)
  · rw [if_neg h1] at hok
    by_cases h2 : par ≤ 0
    · rw [if_pos h2] at hok
      exact absurd hok (by simp)
    · rw [if_neg h2] at hok
      rw [Except.ok.injEq] at hok
      exact hok.symm

lemma chunkRun_cases (part : Int) (files : List Finfo) (ef : ExtraFile) :
    chunkRun part files ef =
      if 0 < (files.foldl (processItem part) ⟨0, [], ef, []⟩).cumuSize
      then emitSlice (files.foldl (processItem part) ⟨0, [], ef, []⟩)
      else files.foldl (processItem part) ⟨0, [], ef, []⟩ := rfl

lemma chunkInv_init (part : Int) (ef : ExtraFile) (hpart : 1 ≤ part) :
    ChunkInv part (⟨0, [], ef, []⟩ : ChunkAcc) :=
  ⟨le_refl 0, by show (0:Int) < part; omega, rfl, by simp, by simp⟩

/-! ## Claim C1 (capacity invariant) -/

/-- Claim C1, counterexample: with `ExpectSliceSize = 10` and a feeder
reserving 5 bytes but holding a 7-byte candidate, the first (non-last) of
the two emitted plans carries `5 + 7 = 12 > 10` bytes once the feeder
batch is concatenated, because `getFiles` admits a candidate that
overshoots the remaining budget.  So the combined plan exceeds
`target_capacity` on a non-final slice. -/
theorem chunk_capacity_counterexample :
    Chunk 10 2 cexFiles efOvershoot =
      .ok [⟨[wholeFile "extra/x" "x" 7], [wholeFile "in/a" "a" 5]⟩,
           ⟨[wholeFile "extra/x" "x" 7], [wholeFile "in/b" "b" 5]⟩] ∧
    sumSizes (SlicePlan.descs
      ⟨[wholeFile "extra/x" "x" 7], [wholeFile "in/a" "a" 5]⟩) = 12 ∧
    ¬(sumSizes (SlicePlan.descs
      ⟨[wholeFile "extra/x" "x" 7], [wholeFile "in/a" "a" 5]⟩) ≤ 10) :=
  ⟨by rfl, by decide, by decide⟩

/-- Claim C1, amended: the capacity invariant holds for the partitioner's
own descriptors -- every emitted plan except possibly the last has
partitioner-side `size_in_slice` sum exactly
`partSliceSize = ExpectSliceSize - Ef.sliceSize`, and every plan
(including the last) has partitioner-side sum at most `ExpectSliceSize`
when the feeder reservation is nonnegative.  Feeder descriptors ride in
the reserved budget but can push a combined plan past `ExpectSliceSize`
(see the counterexample). -/
theorem chunk_capacity_own (e par : Int) (files : List Finfo)
    (ef : ExtraFile) (ps : List SlicePlan)
    (hss : 0 ≤ ef.sliceSize)
    (hpart : 1 ≤ e - ef.sliceSize)
    (hw : ∀ f ∈ files, IsWholeFile f)
    (hok : Chunk e par files ef = .ok ps) :
    (∀ p ∈ ps.dropLast, sumSizes p.own = e - ef.sliceSize) ∧
    ∀ p ∈ ps, sumSizes p.own ≤ e := by
  rw [chunk_ok_plans e par files ef ps hok, chunkRun_cases]
  obtain ⟨hinvF, dss, hodF, hall⟩ :=
    chunkFold_spec (e - ef.sliceSize) hpart files ⟨0, [], ef, []⟩
      (chunkInv_init (e - ef.sliceSize) ef hpart) hw
  obtain ⟨I1, I2, I3, I4, I5⟩ := hinvF
  by_cases hfin : 0 < (files.foldl (processItem (e - ef.sliceSize))
      ⟨0, [], ef, []⟩).cumuSize
  · rw [if_pos hfin]
    constructor
    · intro p hp
      rw [show (emitSlice (files.foldl (processItem (e - ef.sliceSize))
          ⟨0, [], ef, []⟩)).plans = (files.foldl (processItem (e - ef.sliceSize))
          ⟨0, [], ef, []⟩).plans ++ [⟨((files.foldl (processItem (e - ef.sliceSize))
          ⟨0, [], ef, []⟩).ef.getFiles).1, (files.foldl (processItem (e - ef.sliceSize))
          ⟨0, [], ef, []⟩).graphFiles⟩] from rfl, List.dropLast_concat] at hp
      exact I5 p hp
    · intro p hp
      rw [show (emitSlice (files.foldl (processItem (e - ef.sliceSize))
          ⟨0, [], ef, []⟩)).plans = (files.foldl (processItem (e - ef.sliceSize))
          ⟨0, [], ef, []⟩).plans ++ [⟨((files.foldl (processItem (e - ef.sliceSize))
          ⟨0, [], ef, []⟩).ef.getFiles).1, (files.foldl (processItem (e - ef.sliceSize))
          ⟨0, [], ef, []⟩).graphFiles⟩] from rfl, List.mem_append,
        List.mem_singleton] at hp
      rcases hp with hp | hp
      · have := I5 p hp
        omega
      · subst hp
        dsimp only
        rw [I3]
        omega
  · rw [if_neg hfin]
    constructor
    · intro p hp
      exact I5 p (List.dropLast_subset _ hp)
    · intro p hp
      have := I5 p hp
      omega

/-- Witness for `chunk_capacity_own` on the concrete run
`Chunk 10 2 filesW efEmpty = .ok psW`. -/
theorem chunk_capacity_own_witness :
    (∀ p ∈ psW.dropLast, sumSizes p.own = 10 - efEmpty.sliceSize) ∧
    ∀ p ∈ psW, sumSizes p.own ≤ 10 :=
  chunk_capacity_own 10 2 filesW efEmpty psW (by decide) (by decide)
    (by decide) (by rfl)

/-! ## Claim C2 (tiling invariant) -/

/-- Claim C2: for every source file processed by `Chunk`, the emitted
partitioner-side descriptors with that file's path, in emission order
(which is `byte_start` order, as consecutive descriptors are adjacent),
exactly tile `[0, file_size - 1]` -- no gap and no overlap -- whether the
file was passed whole or split across slices.  Requires a positive
partitioner capacity (spec §7), distinct source paths, and the
enumerator's whole-file descriptor form (spec §4.1). -/
theorem chunk_tiling (e par : Int) (files : List Finfo) (ef : ExtraFile)
    (ps : List SlicePlan)
    (hpart : 1 ≤ e - ef.sliceSize)
    (hw : ∀ f ∈ files, IsWholeFile f)
    (hnd : (files.map Finfo.path).Nodup)
    (hok : Chunk e par files ef = .ok ps) :
    ∀ f ∈ files, tilesFile f.size
      ((emittedOwn ps).filter (fun d => d.path == f.path)) := by
  rw [chunk_ok_plans e par files ef ps hok, chunkRun_cases]
  obtain ⟨hinvF, dss, hodF, hall⟩ :=
    chunkFold_spec (e - ef.sliceSize) hpart files ⟨0, [], ef, []⟩
      (chunkInv_init (e - ef.sliceSize) ef hpart) hw
  obtain ⟨I1, I2, I3, I4, I5⟩ := hinvF
  have hod0 : ownDescs (⟨0, [], ef, []⟩ : ChunkAcc) = [] := rfl
  rw [hod0, List.nil_append] at hodF
  by_cases hfin : 0 < (files.foldl (processItem (e - ef.sliceSize))
      ⟨0, [], ef, []⟩).cumuSize
  · simp only [if_pos hfin]
    rw [emittedOwn_emitSlice]
    exact tiling_of_join_split files dss _ [] hall
      (by rw [List.append_nil, hodF]) (by simp) hnd
  · simp only [if_neg hfin]
    have hcz : (files.foldl (processItem (e - ef.sliceSize))
        ⟨0, [], ef, []⟩).cumuSize = 0 := by omega
    refine tiling_of_join_split files dss _
      (files.foldl (processItem (e - ef.sliceSize)) ⟨0, [], ef, []⟩).graphFiles
      hall (by rw [← ownDescs_split, hodF]) ?_ hnd
    exact sumSizes_all_zero _ (by rw [I3, hcz]) I4

/-- Witness for `chunk_tiling` on the concrete run
`Chunk 10 2 filesW efEmpty = .ok psW`: the 4-byte file `in/a`. -/
theorem chunk_tiling_witness :
    wholeFile "in/a" "a" 4 ∈ filesW ∧
    tilesFile (wholeFile "in/a" "a" 4).size
      ((emittedOwn psW).filter
        (fun d => d.path == (wholeFile "in/a" "a" 4).path)) :=
  ⟨by decide, chunk_tiling 10 2 filesW efEmpty psW (by decide) (by decide)
    (by decide) (by rfl) (wholeFile "in/a" "a" 4) (by decide)⟩

/-! ## Claim C3 (conservation) -/

/-- Claim C3: over a whole `Chunk` run, the `size_in_slice` sum of all
emitted partitioner-side descriptors (across all Build Callback
invocations) equals the total size of the enumerated input files; the
supplementary feeder descriptors (`SlicePlan.batch`) are not counted. -/
theorem chunk_conservation (e par : Int) (files : List Finfo)
    (ef : ExtraFile) (ps : List SlicePlan)
    (hpart : 1 ≤ e - ef.sliceSize)
    (hw : ∀ f ∈ files, IsWholeFile f)
    (hok : Chunk e par files ef = .ok ps) :
    sumSizes (emittedOwn ps) = (files.map Finfo.size).sum := by
  rw [chunk_ok_plans e par files ef ps hok, chunkRun_cases]
  obtain ⟨hinvF, dss, hodF, hall⟩ :=
    chunkFold_spec (e - ef.sliceSize) hpart files ⟨0, [], ef, []⟩
      (chunkInv_init (e - ef.sliceSize) ef hpart) hw
  obtain ⟨I1, I2, I3, I4, I5⟩ := hinvF
  have hod0 : ownDescs (⟨0, [], ef, []⟩ : ChunkAcc) = [] := rfl
  rw [hod0, List.nil_append] at hodF
  have hsumF : sumSizes (ownDescs (files.foldl (processItem (e - ef.sliceSize))
      ⟨0, [], ef, []⟩)) = (files.map Finfo.size).sum := by
    rw [hodF]
    exact forall₂_sum_sizes files dss hall
  by_cases hfin : 0 < (files.foldl (processItem (e - ef.sliceSize))
      ⟨0, [], ef, []⟩).cumuSize
  · simp only [if_pos hfin]
    rw [emittedOwn_emitSlice]
    exact hsumF
  · simp only [if_neg hfin]
    rw [ownDescs_split, sumSizes_append, I3] at hsumF
    omega

/-- Witness for `chunk_conservation` on the concrete run
`Chunk 10 2 filesW efEmpty = .ok psW`. -/
theorem chunk_conservation_witness :
    sumSizes (emittedOwn psW) = (filesW.map Finfo.size).sum :=
  chunk_conservation 10 2 filesW efEmpty psW (by decide) (by decide) (by rfl)

/-! ## Claim C4 (split arithmetic) -/

/-- Claim C4: when a file arrives with `accumulated + S > cap`
(`cap = partSliceSize`), `Chunk` splits it exactly as specified: the cut
ranges are `[0, cap - accumulated - 1]` followed by successive ranges of
exactly `cap` bytes (the last possibly shorter), the first cut and each
exactly-`cap` cut trigger one emit each
(`1 + (accumulated + S - cap) / cap` plans in total), and the leftover
`(accumulated + S - cap) % cap < cap` carries forward as the new
accumulator. -/
theorem chunk_split_exact (part : Int) (acc : ChunkAcc) (item : Finfo)
    (hpart : 1 ≤ part)
    (hc1 : 0 ≤ acc.cumuSize) (hc2 : acc.cumuSize < part)
    (hgt : part < acc.cumuSize + item.size) :
    ∃ ds, ownDescs (processItem part acc item) = ownDescs acc ++ ds ∧
      ds.map (fun d => (d.seekStart, d.seekEnd)) =
        specSplitRanges part acc.cumuSize item.size ∧
      (processItem part acc item).plans.length = acc.plans.length + 1 +
        ((acc.cumuSize + item.size - part) / part).toNat ∧
      (processItem part acc item).cumuSize =
        (acc.cumuSize + item.size - part) % part ∧
      (processItem part acc item).cumuSize < part := by
  unfold processItem
  simp only [if_neg (show ¬(acc.cumuSize + item.size < part) by omega),
    if_neg (show ¬(acc.cumuSize + item.size = part) by omega)]
  have hse : part - acc.cumuSize - 1 ≤ item.size - 1 := by omega
  have hout := splitLoop_spec part item.size item hpart
    (item.size - 1 - (part - acc.cumuSize - 1)).toNat 1
    (part - acc.cumuSize - 1)
    (emitSlice { acc with
      graphFiles := acc.graphFiles ++
        [{ path := item.path, name := cutName item 0, size := item.size,
           seekStart := 0, seekEnd := part - acc.cumuSize - 1 }] })
    (le_refl _) hse rfl rfl
  obtain ⟨B1, B2, B3, B4, B5, ds2, hd1, hd2, hd3, hd4, hd5, hd6, hd7, hd8⟩ :=
    hout
  have hR : item.size - 1 - (part - acc.cumuSize - 1) =
      acc.cumuSize + item.size - part := by ring
  refine ⟨(⟨item.path, cutName item 0, item.size, 0,
      part - acc.cumuSize - 1⟩ : Finfo) :: ds2, ?_, ?_, ?_, ?_, ?_⟩
  · rw [hd1, ownDescs_emitSlice]
    unfold ownDescs
    dsimp only
    simp
  · rw [List.map_cons, hd2]
    unfold specSplitRanges
    rw [show part - acc.cumuSize - 1 + 1 = part - acc.cumuSize by ring]
  · rw [B5, hR]
    simp only [emitSlice, List.length_append, List.length_singleton]
  · rw [B1, hR]
  · rw [B1, hR]
    exact Int.emod_lt_of_pos _ (by omega)

/-- Witness for `chunk_split_exact`: a 9-byte file arriving with
`accumulated = 2` against `cap = 5` is cut into `[0,2]`, `[3,7]`, `[8,8]`
with two emits and leftover 1. -/
theorem chunk_split_exact_witness :
    ∃ ds, ownDescs (processItem 5
        ⟨2, [wholeFile "in/w" "w" 2], efEmpty, []⟩ (wholeFile "in/f" "f" 9)) =
      ownDescs ⟨2, [wholeFile "in/w" "w" 2], efEmpty, []⟩ ++ ds ∧
      ds.map (fun d => (d.seekStart, d.seekEnd)) = specSplitRanges 5 2 9 ∧
      (processItem 5 ⟨2, [wholeFile "in/w" "w" 2], efEmpty, []⟩
        (wholeFile "in/f" "f" 9)).plans.length =
          0 + 1 + ((2 + 9 - 5 : Int) / 5).toNat ∧
      (processItem 5 ⟨2, [wholeFile "in/w" "w" 2], efEmpty, []⟩
        (wholeFile "in/f" "f" 9)).cumuSize = (2 + 9 - 5) % 5 ∧
      (processItem 5 ⟨2, [wholeFile "in/w" "w" 2], efEmpty, []⟩
        (wholeFile "in/f" "f" 9)).cumuSize < 5 :=
  chunk_split_exact 5 ⟨2, [wholeFile "in/w" "w" 2], efEmpty, []⟩
    (wholeFile "in/f" "f" 9) (by decide) (by decide) (by decide) (by decide)

/-! ## Claim C5 (configuration rejection) -/

/-- Claim C5, counterexample: a negative capacity is not rejected.  With
`ExpectSliceSize = -1` the guard `params.ExpectSliceSize == 0` passes, so
`Chunk` proceeds past configuration checking instead of returning the
configuration error (on the empty corpus it then returns success with no
slices, matching the source's `GetGraphCount == 0` early return). -/
theorem chunk_negative_capacity_not_rejected :
    Chunk (-1) 2 [] efEmpty = .ok [] := by rfl

/-- Claim C5, amended: only a capacity of exactly zero is rejected before
enumeration (with the configuration error and no emitted slices); negative
capacities pass the configuration check. -/
theorem chunk_zero_capacity_rejected (parallel : Int) (files : List Finfo)
    (ef : ExtraFile) :
    Chunk 0 parallel files ef = .error "slice size has been set as 0" := by
  unfold Chunk
  simp

/-! ## Claim C6 (feeder 32 GiB ceiling) -/

/-- Claim C6, counterexample: with `pieceRawSize = 33 GiB` no candidate is
admissible, the feeder returns the empty batch, and that batch's total
size (0) plus the per-item reservation exceeds 32 GiB -- so, as stated,
"never returns a batch whose total size plus the reservation exceeds
32 GiB" fails on the empty batch. -/
theorem ef_feeder_cap_counterexample :
    (efHugeReserve.getFiles).1 = [] ∧
    ¬(sumFileSizes (efHugeReserve.getFiles).1 + efHugeReserve.pieceRawSize
        ≤ 32 * Gib) := by decide

/-- Claim C6, amended: a candidate is admitted only when
`accumulated + size + pieceRawSize ≤ 32 GiB`, so every nonempty batch
returned by `ExtraFile.getFiles` satisfies
`total + pieceRawSize ≤ 32 GiB`, regardless of `sliceSize`; an empty batch
carries no admitted bytes and its nominal `0 + pieceRawSize` can exceed
the ceiling only because `pieceRawSize` itself does. -/
theorem ef_feeder_cap (rf : ExtraFile) (h : (rf.getFiles).1 ≠ []) :
    sumFileSizes (rf.getFiles).1 + rf.pieceRawSize ≤ 32 * Gib := by
  unfold ExtraFile.getFiles at h ⊢
  by_cases hl : rf.files.length = 0
  · simp [hl] at h
  · simp only [hl, if_false] at h ⊢
    rcases hsome : getFilesLoop rf.files rf.sliceSize rf.pieceRawSize rf.idx
        rf.files.length rf.idx 0 with _ | ⟨fs, i⟩
    · rw [hsome] at h
      exact absurd rfl h
    · rw [hsome] at h
      have hfs : fs ≠ [] := h
      rcases ef_loop_cap rf.files rf.sliceSize rf.pieceRawSize rf.idx
          rf.files.length rf.idx 0 (fs, i) hsome with hnil | hle
      · exact absurd hnil hfs
      · show sumFileSizes fs + rf.pieceRawSize ≤ 32 * Gib
        linarith

/-- Witness for `ef_feeder_cap` at a concrete feeder whose batch is
nonempty. -/
theorem ef_feeder_cap_witness :
    (efSmall.getFiles).1 ≠ [] ∧
    sumFileSizes (efSmall.getFiles).1 + efSmall.pieceRawSize ≤ 32 * Gib :=
  ⟨by decide, ef_feeder_cap efSmall (by decide)⟩

/-! ## Claim C7 (feeder termination within one pass) -/

/-- Claim C7: every `ExtraFile.getFiles` call terminates within one full
revolution of the cursor -- running the loop with fuel equal to the
candidate count always yields a genuine result (the loop stops on
`total ≥ sliceSize` or on wrap-around), and any extra fuel leaves the
result unchanged, i.e. the loop never runs past one full pass.  The
updated cursor is returned in the result and persisted by
`ExtraFile.getFiles`. -/
theorem ef_getFiles_terminates_loop (files : List Finfo) (ss prs : Int)
    (startIdx : Nat) (h : startIdx < files.length) :
    (getFilesLoop files ss prs startIdx files.length startIdx 0).isSome ∧
    ∀ extra total, getFilesLoop files ss prs startIdx (files.length + extra)
        startIdx total =
      getFilesLoop files ss prs startIdx files.length startIdx total := by
  have hd : wrapDist startIdx files.length startIdx ≤ files.length := by
    unfold wrapDist
    split <;> omega
  constructor
  · exact ef_loop_isSome files ss prs startIdx h files.length startIdx 0 h hd
  · intro extra total
    have hsome := ef_loop_isSome files ss prs startIdx h files.length startIdx
      total h hd
    rcases Option.isSome_iff_exists.mp hsome with ⟨r, hr⟩
    rw [hr]
    exact ef_loop_stable files ss prs startIdx extra files.length startIdx
      total r hr

/-- Witness for `ef_getFiles_terminates_loop` on a concrete one-element
candidate list. -/
theorem ef_getFiles_terminates_loop_witness :
    (0 < ([wholeFile "e/a" "a" 1] : List Finfo).length) ∧
    (getFilesLoop [wholeFile "e/a" "a" 1] 1 0 0
      ([wholeFile "e/a" "a" 1] : List Finfo).length 0 0).isSome :=
  ⟨by decide, (ef_getFiles_terminates_loop [wholeFile "e/a" "a" 1] 1 0 0
    (by decide)).1⟩

/-- The image of `List.range n` under `i ↦ c + i` is strictly
increasing. -/
lemma pairwise_lt_of_add_range (c : Int) (n : Nat) :
    List.Pairwise (fun a b => a < b)
      ((List.range n).map (fun (i : Nat) => c + (i : Int))) := by
  induction n with
  | zero => simp
  | succ n ih =>
    rw [List.range_succ, List.map_append]
    refine List.pairwise_append.mpr ⟨ih, by simp, ?_⟩
    intro x hx y hy
    simp only [List.mem_map, List.mem_range] at hx
    simp only [List.map_cons, List.map_nil, List.mem_singleton] at hy
    rcases hx with ⟨a, ha, rfl⟩
    subst hy
    omega

/-! ## Claim C8 (video feeder monotonicity) -/

/-- Claim C8, counterexample: on a 10-second source, the call with counter
9 passes index 9, rendered by `timeDelayMS` as `"0:0:0.9"` and parsed as
900 ms, and the next call passes index 10, rendered as `"0:0:0.10"` and
parsed as 100 ms -- the parsed start offsets DECREASE (100 < 900), so they
are not strictly increasing; the two segments `[900ms, 10900ms)` and
`[100ms, 10100ms)` both contain source time 1000 ms and both offsets lie
within the duration, so successive calls do produce overlapping source
time ranges (each segment spans the full `endTime` duration from its
start); and indices 1 and 100 (`"0:0:0.1"` and `"0:0:0.100"`) both parse
to 100 ms, so offsets are not pairwise distinct either. -/
theorem video_overlap_counterexample :
    ((VideoFile.getFiles ⟨9, 10000⟩).1.startMS = 900 ∧
      (VideoFile.getFiles (VideoFile.getFiles ⟨9, 10000⟩).2).1.startMS
        = 100) ∧
    ((VideoFile.getFiles (VideoFile.getFiles ⟨9, 10000⟩).2).1.startMS
      < (VideoFile.getFiles ⟨9, 10000⟩).1.startMS) ∧
    ((VideoFile.getFiles ⟨9, 10000⟩).1.startMS ≤ 1000 ∧
      (1000 : Int) < (VideoFile.getFiles ⟨9, 10000⟩).1.stopMS ∧
      (VideoFile.getFiles (VideoFile.getFiles ⟨9, 10000⟩).2).1.startMS
        ≤ 1000 ∧
      (1000 : Int) <
        (VideoFile.getFiles (VideoFile.getFiles ⟨9, 10000⟩).2).1.stopMS) ∧
    ((VideoFile.getFiles ⟨9, 10000⟩).1.startMS < 10000 ∧
      (VideoFile.getFiles (VideoFile.getFiles ⟨9, 10000⟩).2).1.startMS
        < 10000) ∧
    (VideoFile.getFiles ⟨1, 10000⟩).1.startMS
      = (VideoFile.getFiles ⟨100, 10000⟩).1.startMS := by decide

/-- Claim C8, amended: each call increments the counter by exactly one and
never decrements or reuses it, so the millisecond indices that successive
calls pass to `timeDelayMS` (`counter` each) are strictly increasing and
pairwise distinct; but because `timeDelayMS` renders `index % 1000`
without zero padding, the start offsets the segmentation tool parses from
those indices are neither strictly increasing nor pairwise distinct, and
the extracted segments overlap in source time, since each spans the full
source duration from its offset (see the counterexample). -/
theorem video_counter_monotone (vf : VideoFile) (n : Nat) :
    (vf.getFiles).2.counter = vf.counter + 1 ∧
    (vf.getFiles).1.indexMS = vf.counter ∧
    videoIndices vf n = (List.range n).map (fun (i : Nat) => vf.counter + (i : Int)) ∧
    List.Pairwise (fun a b => a < b) (videoIndices vf n) := by
  have key : ∀ (m : Nat) (w : VideoFile),
      videoIndices w m = (List.range m).map (fun (i : Nat) => w.counter + (i : Int)) := by
    intro m
    induction m with
    | zero => intro w; simp [videoIndices]
    | succ m ih =>
      intro w
      rw [videoIndices, ih, List.range_succ_eq_map]
      simp only [List.map_cons, List.map_map]
      congr 1
      · simp [VideoFile.getFiles]
      · apply List.map_congr_left
        intro i _
        simp only [Function.comp_apply, VideoFile.getFiles]
        push_cast
        ring
  refine ⟨rfl, by simp [VideoFile.getFiles], key n vf, ?_⟩
  rw [key n vf]
  exact pairwise_lt_of_add_range vf.counter n

/-! ## Claim C9 (config round-trip) -/

/-- Claim C9: saving a `Config` and loading it back restores every field
(`SliceSize`, `ExtraFilePath`, `ExtraFileSizeInOnePiece`); the TOML layer
is modelled at the document level, as the key/value record the external
encoder writes and the decoder reads. -/
theorem config_roundtrip (c : Config) : LoadConfig (SaveConfig c) = some c := by
  rfl

/-! ## Claim C10 (manifest Create validation) -/

/-- Claim C10: `PieceManifestRepository.Create` inserts exactly the
manifests with nonempty `PayloadCID`/`Filename`/`PieceCID`, positive
sizes, a status among pending/processing/completed/failed, and a
`payload_cid` not already stored; every other manifest is rejected with an
error and nothing is inserted (an `ok` result is always the store with
just the new row appended). -/
theorem createManifest_validates (store : List PieceManifest)
    (m : PieceManifest) :
    (createManifest store m = .ok (store ++ [m]) ↔
      (m.payloadCID ≠ "" ∧ m.filename ≠ "" ∧ m.pieceCID ≠ "" ∧
       0 < m.payloadSize ∧ 0 < m.pieceSize ∧
       (m.status = "pending" ∨ m.status = "processing" ∨
        m.status = "completed" ∨ m.status = "failed") ∧
       getByPayloadCID store m.payloadCID = none)) ∧
    (∀ st2, createManifest store m = .ok st2 → st2 = store ++ [m]) := by
  unfold createManifest
  split_ifs with h1 h2 h3
  · refine ⟨⟨fun h => ?_, fun hr => ?_⟩, fun st2 h => ?_⟩
    · simp at h
    · exact absurd h1 (by tauto)
    · simp at h
  · refine ⟨⟨fun h => ?_, fun hr => ?_⟩, fun st2 h => ?_⟩
    · simp at h
    · obtain ⟨-, -, -, hp, hq, -⟩ := hr
      rcases h2 with h2 | h2 <;> omega
    · simp at h
  · refine ⟨⟨fun h => ?_, fun hr => ?_⟩, fun st2 h => ?_⟩
    · simp at h
    · obtain ⟨-, -, -, -, -, hst, -⟩ := hr
      obtain ⟨ha, hb, hc, hd⟩ := h3
      rcases hst with h | h | h | h
      · exact ha h
      · exact hb h
      · exact hc h
      · exact hd h
    · simp at h
  · rcases hq : getByPayloadCID store m.payloadCID with _ | mm
    · refine ⟨⟨fun _ => ?_, fun _ => rfl⟩, fun st2 h => ?_⟩
      · push_neg at h1 h2
        refine ⟨h1.1, h1.2.1, h1.2.2, by omega, by omega, ?_, rfl⟩
        by_contra hst
        push_neg at hst
        exact h3 ⟨hst.1, hst.2.1, hst.2.2.1, hst.2.2.2⟩
      · have h4 : Except.ok (ε := String) (store ++ [m]) = .ok st2 := h
        rw [Except.ok.injEq] at h4
        exact h4.symm
    · refine ⟨⟨fun h => ?_, fun hr => ?_⟩, fun st2 h => ?_⟩
      · exact Except.noConfusion h
      · exact Option.noConfusion hr.2.2.2.2.2.2
      · exact Except.noConfusion h

/-- Witness for `createManifest_validates`: a concrete valid manifest is
inserted into the empty store. -/
theorem createManifest_validates_witness :
    createManifest [] mGood = .ok ([] ++ [mGood]) :=
  (createManifest_validates [] mGood).1.mpr (by decide)

end GraphSplit
